import Mathlib

/-!
Shallow embedding of the code-RAG repository (code_indexer.py, map.py,
process_files.py, rag_engine.py) and verification of its specification
claims.

Modelling conventions:
* Python lists become Lean `List`s; dicts with insertion-order iteration
  become association lists in insertion order.
* Floating-point embedding vectors become `List ℚ`; the externally
  computed `cosine_similarity` is abstracted as a parameter
  `sim : Emb → Emb → ℚ` of the search operation (the ranking logic under
  verification is independent of how the scores are produced).
* `numpy.argsort` is modelled as a stable ascending sort of indices by
  score (numpy's behaviour on the small arrays relevant here), and the
  code's `[::-1]` reversal is modelled as `List.reverse`.
* `uuid.uuid4()` identifiers on indexer-produced elements are
  nondeterministic and are not part of any verified claim, so indexer
  elements carry no id field; documents fed to the RAG store (which do
  carry ids through the metadata passthrough) are modelled with an id.
* File-system reads are modelled by passing the file's text content
  alongside its path; tree-sitter parsing/capturing is abstracted as an
  environment function producing a captures dictionary.
-/

namespace CodeRag

/-- `LANGUAGE_MAP` from `map.py` / `code_indexer.py` (the two copies are
identical), as an association list in source order.  The duplicate
`".jl"` key appears twice in the Python dict literal with the same
value, so first-match lookup agrees with Python's last-write-wins. -/
def LANGUAGE_MAP : List (String × String) := [
  (".py", "python"),
  (".java", "java"),
  (".js", "javascript"),
  (".jsx", "javascript"),
  (".ts", "typescript"),
  (".tsx", "tsx"),
  (".c", "c"),
  (".cpp", "cpp"),
  (".h", "c"),
  (".hpp", "cpp"),
  (".rb", "ruby"),
  (".go", "go"),
  (".rs", "rust"),
  (".php", "php"),
  (".cs", "csharp"),
  (".html", "html"),
  (".css", "css"),
  (".json", "json"),
  (".yaml", "yaml"),
  (".toml", "toml"),
  (".sh", "bash"),
  (".zsh", "bash"),
  (".swift", "swift"),
  (".kt", "kotlin"),
  (".scala", "scala"),
  (".pl", "perl"),
  (".pm", "perl"),
  (".r", "r"),
  (".lua", "lua"),
  (".sql", "sql"),
  (".hs", "haskell"),
  (".erl", "erlang"),
  (".ex", "elixir"),
  (".ml", "ocaml"),
  (".fs", "fsharp"),
  (".clj", "clojure"),
  (".dart", "dart"),
  (".groovy", "groovy"),
  (".jl", "julia"),
  (".scm", "scheme"),
  (".vim", "vimscript"),
  (".zig", "zig"),
  (".odin", "odin"),
  (".xml", "xml"),
  (".md", "markdown"),
  (".rst", "rst"),
  (".tex", "latex"),
  (".nim", "nim"),
  (".pkl", "pkl"),
  (".vue", "vue"),
  (".svelte", "svelte"),
  (".graphql", "graphql"),
  (".proto", "proto"),
  (".ps1", "powershell"),
  (".jl", "julia"),
  (".tcl", "tcl"),
  (".m", "matlab"),
  (".bashrc", "bash"),
  (".zshrc", "bash"),
  (".Dockerfile", "dockerfile"),
  ("Dockerfile", "dockerfile"),
  (".gitignore", "gitignore"),
  (".gitattributes", "gitattributes"),
  ("Makefile", "make"),
  (".wat", "wat"),
  (".wast", "wat"),
  (".ql", "ql"),
  (".blade.php", "blade"),
  (".eex", "embedded_template"),
  (".heex", "embedded_template")]

/-- `LANGUAGE_MAP.get(key)`. -/
def langLookup (key : String) : Option String :=
  (LANGUAGE_MAP.find? (fun p => p.1 = key)).map (fun p => p.2)

/-- Split a character list at every occurrence of the separator
character, Python `str.split(sep)` style: the empty list yields `[[]]`
and separators at the ends yield empty components. -/
def splitOnChar (sep : Char) : List Char → List (List Char)
  | [] => [[]]
  | x :: xs =>
    if x = sep then [] :: splitOnChar sep xs
    else
      match splitOnChar sep xs with
      | h :: t => (x :: h) :: t
      | [] => [[x]]

/-- Python `s.split(sep)` for a single-character separator, on Lean
strings (executable model of `String.splitOn` for our inputs). -/
def strSplit (s : String) (sep : Char) : List String :=
  (splitOnChar sep s.data).map String.mk

/-- Python `str.lower()` (ASCII case folding, which covers every key of
`LANGUAGE_MAP` and every extension the claims exercise). -/
def strLower (s : String) : String :=
  String.mk (s.data.map Char.toLower)

/-- Python `str.endswith(post)`. -/
def strEnds (s post : String) : Bool :=
  post.data.isSuffixOf s.data

/-- ASCII whitespace, the character class Python's `str.strip()` removes
on the source texts in scope. -/
def isWS (c : Char) : Bool :=
  c = ' ' ∨ c = '\t' ∨ c = '\n' ∨ c = '\r'

/-- Python `str.strip()`. -/
def strStrip (s : String) : String :=
  String.mk (((s.data.dropWhile isWS).reverse.dropWhile isWS).reverse)

/-- Index of the last occurrence of `'.'` in a character list, if any. -/
def lastDotIdx (cs : List Char) : Option Nat :=
  (cs.reverse.findIdx? (fun c => c = '.')).map (fun r => cs.length - 1 - r)

/-- The extension part of `os.path.splitext(path)`: the suffix of the
path's last `/`-separated component starting at its last dot, provided
some character strictly before that dot (within the component) is not a
dot; otherwise the empty string.  This reproduces Python's rule that
leading dots of the basename (e.g. `.gitignore`) do not start an
extension. -/
def extOf (path : String) : String :=
  let b := (strSplit path '/').getLastD ""
  let cs := b.data
  match lastDotIdx cs with
  | none => ""
  | some d => if (cs.take d).any (fun c => c ≠ '.') then String.mk (cs.drop d) else ""

/-- The language-resolution step of `process_file`:
`LANGUAGE_MAP.get(os.path.splitext(file_path)[1].lower())`. -/
def resolveLang (path : String) : Option String :=
  langLookup (strLower (extOf path))

/-- `os.path.basename` (POSIX): the part after the last `/`. -/
def basename (path : String) : String :=
  (strSplit path '/').getLastD ""

/-- One element dict produced by the indexer
(`extract_elements_with_tree_sitter` / `process_non_python_file`).
The `id` key (a fresh `uuid.uuid4()` string) is nondeterministic and not
inspected by any claim, so it is not modelled.  Chunk dicts carry no
`name` key, extractor dicts always do, hence `name : Option String`.
`line_range` is the pair of numbers formatted as `"start-end"`. -/
structure Element where
  etype : String
  name : Option String
  code : String
  file_path : String
  lineStart : Nat
  lineEnd : Nat
  description : String
deriving DecidableEq, Repr, Inhabited

/-- A tree-sitter node as observed by the extraction loop: identity
(`node.id`), byte span, row span (`start_point[0]`, `end_point[0]`) and
decoded text. -/
structure TSNode where
  nid : Nat
  startByte : Nat
  endByte : Nat
  startRow : Nat
  endRow : Nat
  text : String
deriving DecidableEq, Repr, Inhabited

/-- `query.captures(root_node)`: a dict from capture name to node list,
iterated in insertion order. -/
abbrev CapturesDict := List (String × List TSNode)

/-- `captures_dict.get(key, [])`. -/
def lookupCaptures (cd : CapturesDict) (key : String) : List TSNode :=
  match cd.find? (fun p => p.1 = key) with
  | some p => p.2
  | none => []

/-- `capture_name.split(".")[0]`. -/
def elementTypeBase (capName : String) : String :=
  (strSplit capName '.').headD ""

/-- The inner name-search loop: the first name node whose byte span is
contained in the definition node's byte span, decoded; `"Unknown"` when
none is. -/
def findElementName (nameNodes : List TSNode) (d : TSNode) : String :=
  match nameNodes.find? (fun n =>
      decide (d.startByte ≤ n.startByte) && decide (n.endByte ≤ d.endByte)) with
  | some n => n.text
  | none => "Unknown"

/-- The element dict built for one definition node. -/
def mkElement (filePath base name : String) (d : TSNode) : Element :=
  { etype := base
    name := some name
    code := d.text
    file_path := filePath
    lineStart := d.startRow + 1
    lineEnd := d.endRow + 1
    description := base.capitalize ++ " " ++ name ++ " from " ++ basename filePath }

/-- The inner loop over `definition_nodes` for one capture family,
threading the `processed_definition_nodes` set (modelled as a list of
node ids). -/
def processDefs (filePath base : String) (nameNodes : List TSNode) :
    List TSNode → List Nat → List Element × List Nat
  | [], seen => ([], seen)
  | d :: ds, seen =>
    if d.nid ∈ seen then processDefs filePath base nameNodes ds seen
    else
      let r := processDefs filePath base nameNodes ds (d.nid :: seen)
      (mkElement filePath base (findElementName nameNodes d) d :: r.1, r.2)

/-- The outer loop over `captures_dict.items()`, skipping capture names
that do not end in `".definition"`. -/
def extractGo (filePath : String) (cd : CapturesDict) :
    CapturesDict → List Nat → List Element
  | [], _ => []
  | (capName, defs) :: rest, seen =>
    if strEnds capName ".definition" then
      let base := elementTypeBase capName
      let pr := processDefs filePath base (lookupCaptures cd (base ++ ".name")) defs seen
      pr.1 ++ extractGo filePath cd rest pr.2
    else extractGo filePath cd rest seen

/-- The capture-matching core of `extract_elements_with_tree_sitter`:
from a captures dict to the emitted element list. -/
def extractFromCaptures (filePath : String) (cd : CapturesDict) : List Element :=
  extractGo filePath cd cd []

/-- The keys of the `queries` dict inside
`extract_elements_with_tree_sitter` (the query strings themselves are
consumed by tree-sitter, which is abstracted into `TSEnv`). -/
def QUERY_LANGS : List String :=
  ["python", "java", "javascript", "c", "cpp", "csharp"]

/-- `queries.get(language_name)` is some query string exactly for these
languages. -/
def hasQuery (lang : String) : Bool :=
  QUERY_LANGS.contains lang

/-- Abstraction of the tree-sitter language pack and parser: whether a
grammar loads (`get_language_and_parser` succeeding), whether the
read/parse/capture try-block raises for a given language and content,
and the captures dict it otherwise produces. -/
structure TSEnv where
  loadable : String → Bool
  parseRaises : String → String → Bool
  captures : String → String → CapturesDict

/-- `extract_elements_with_tree_sitter(file_path, language_name)`:
returns `[]` when the grammar cannot be loaded, when the try-block
raises, or when no query is defined for the language; otherwise the
elements extracted from the captures.  When the query matches nothing on
a non-empty file the code only prints a diagnostic — the commented-out
chunking fallback is not executed — so the empty list is returned
unchanged. -/
def extract_elements_with_tree_sitter (env : TSEnv) (path lang content : String) :
    List Element :=
  if env.loadable lang then
    if env.parseRaises lang content then []
    else if hasQuery lang then extractFromCaptures path (env.captures lang content)
    else []
  else []

/-- Python `range(0, n, s+1)` (the step is kept positive by
construction).  This is CPython's own characterization of a `range`
object: its length is `(n + step - 1) // step` and its `m`-th element is
`m * step`. -/
def rangeStep (n s : Nat) : List Nat :=
  (List.range ((n + s) / (s + 1))).map (fun m => m * (s + 1))

/-- The `chunk_content` local of the chunking loop:
`"\n".join(lines[i : i + 100])`. -/
def chunkWindowText (lines : List String) (i : Nat) : String :=
  String.intercalate "\n" ((lines.drop i).take 100)

/-- `process_non_python_file` (identical in `code_indexer.py` and
`process_files.py`): split on newlines, window by 100 lines, drop
whitespace-only windows, record absolute 1-based line ranges.  The
file-system read is modelled by passing `content`. -/
def process_non_python_file (path content : String) : List Element :=
  let lines := strSplit content '\n'
  (rangeStep lines.length 99).filterMap (fun i =>
    if strStrip (chunkWindowText lines i) = "" then none
    else some
      { etype := "code_chunk"
        name := none
        code := chunkWindowText lines i
        file_path := path
        lineStart := i + 1
        lineEnd := min (i + 100) lines.length
        description := "Code chunk (lines " ++ toString (i + 1) ++ "-" ++
          toString (min (i + 100) lines.length) ++ ") from " ++ basename path })

/-- `process_file` from `code_indexer.py` (the `process_files.py` copy
is line-for-line the same): resolve the language from the lowercased
extension; on success delegate to the tree-sitter extractor, otherwise
print a diagnostic and return `[]` — the chunking-fallback call at both
decision points is commented out in the source. -/
def process_file (env : TSEnv) (path content : String) : List Element :=
  match resolveLang path with
  | some lang => extract_elements_with_tree_sitter env path lang content
  | none => []

/-- `index_files`: concatenate per-file results in input order. -/
def index_files (env : TSEnv) (files : List (String × String)) : List Element :=
  (files.map (fun f => process_file env f.1 f.2)).flatten

/-! ## Vector store (`rag_engine.py`) -/

/-- Embedding vectors: float lists modelled over `ℚ`. -/
abbrev Emb := List ℚ

/-- One stored document: `{"content": ..., "metadata": {...}}`.  The
metadata dict carries `description`, `type`, `file_path` plus the
passthrough of every input key except `code`/`description`; of those,
`id` and `name` are modelled (`line_range` is inspected by no claim). -/
structure VSDoc where
  content : String
  metaDescription : String
  metaType : String
  metaFile : String
  metaId : String
  metaName : String
deriving DecidableEq, Repr, Inhabited

/-- `SimpleVectorStore` observable state. -/
structure VectorStore where
  documents : List VSDoc
  embeddings : List Emb
deriving DecidableEq, Repr, Inhabited

/-- Construction with no pre-existing pickle file. -/
def emptyStore : VectorStore :=
  { documents := [], embeddings := [] }

/-- `SimpleVectorStore.add_documents`: extend both lists, then persist. -/
def add_documents (s : VectorStore) (docs : List VSDoc) (embs : List Emb) : VectorStore :=
  { documents := s.documents ++ docs, embeddings := s.embeddings ++ embs }

/-- `SimpleVectorStore.delete_collection`: reset both lists, then
persist. -/
def delete_collection (_s : VectorStore) : VectorStore :=
  emptyStore

/-- `SimpleVectorStore.persist`: the `{documents, embeddings}` snapshot
written to disk. -/
def persistData (s : VectorStore) : VectorStore :=
  s

/-- `SimpleVectorStore.load`: absent file keeps the fresh empty state;
otherwise both lists are taken from the unpickled data (with `[]`
defaults, which the typed snapshot always supplies). -/
def loadStore (data : Option VectorStore) : VectorStore :=
  match data with
  | some d => { documents := d.documents, embeddings := d.embeddings }
  | none => emptyStore

/-- Stable insertion of index `i` into an index list sorted ascending by
score: `i` goes after every index of score `≤` its own. -/
def insertIdx (scores : List ℚ) (i : Nat) : List Nat → List Nat
  | [] => [i]
  | j :: js =>
    if scores.getD j 0 ≤ scores.getD i 0 then j :: insertIdx scores i js
    else i :: j :: js

/-- `np.argsort(similarities)`: indices sorted ascending by score,
equal scores keeping index order (stable, as numpy behaves on the small
arrays in scope). -/
def argsortAsc (scores : List ℚ) : List Nat :=
  (List.range scores.length).foldl (fun acc i => insertIdx scores i acc) []

/-- `np.argsort(similarities)[::-1][:k]`. -/
def topIndices (scores : List ℚ) (k : Nat) : List Nat :=
  (argsortAsc scores).reverse.take k

/-- `cosine_similarity(query, embeddings_array)[0]`: one score per
stored embedding, via the abstracted similarity function. -/
def simScores (sim : Emb → Emb → ℚ) (s : VectorStore) (q : Emb) : List ℚ :=
  s.embeddings.map (fun e => sim q e)

/-- `SimpleVectorStore.similarity_search`. -/
def similarity_search (sim : Emb → Emb → ℚ) (s : VectorStore) (q : Emb) (k : Nat) :
    List (VSDoc × ℚ) :=
  if s.embeddings.isEmpty then []
  else
    let scores := simScores sim s q
    (topIndices scores k).map (fun i => (s.documents.getD i default, scores.getD i 0))

/-- One input dict to `CodeRAG.add_documents` (an indexer element plus
its uuid). -/
structure InputDoc where
  code : String
  description : String
  dtype : String
  file_path : String
  did : String
  dname : String
deriving DecidableEq, Repr, Inhabited

/-- The per-document formatting step of `CodeRAG.add_documents`. -/
def formatDoc (d : InputDoc) : VSDoc :=
  { content := d.code
    metaDescription := d.description
    metaType := d.dtype
    metaFile := d.file_path
    metaId := d.did
    metaName := d.dname }

/-- `f"{description} {code}"`. -/
def embedText (d : InputDoc) : String :=
  d.description ++ " " ++ d.code

/-- The batch-of-32 embedding loop: `model.encode` maps each text to
its embedding. -/
def batchedEncode (enc : String → Emb) (texts : List String) : List Emb :=
  ((rangeStep texts.length 31).map (fun i => ((texts.drop i).take 32).map enc)).flatten

/-- `CodeRAG.add_documents`. -/
def CodeRAG_add_documents (enc : String → Emb) (s : VectorStore) (docs : List InputDoc) :
    VectorStore :=
  if docs.isEmpty then s
  else add_documents s (docs.map formatDoc) (batchedEncode enc (docs.map embedText))

/-! ## Retrieval and context assembly (`CodeRAG.process_query`) -/

/-- One value of the `file_chunks` dict. -/
structure FileChunk where
  file_name : String
  contents : List String
  types : List String
deriving DecidableEq, Repr, Inhabited

/-- The `file_chunks` dict in insertion order. -/
abbrev Groups := List (String × FileChunk)

/-- Dict lookup on `file_chunks`. -/
def lookupGroup (gs : Groups) (fp : String) : Option FileChunk :=
  (gs.find? (fun p => p.1 = fp)).map (fun p => p.2)

/-- `set.add` on the `types` set, modelled as append-if-absent. -/
def addType (ts : List String) (t : String) : List String :=
  if t ∈ ts then ts else ts ++ [t]

/-- Append a content/type to an existing group, leaving other groups
unchanged. -/
def updateGroup (gs : Groups) (fp content ctype : String) : Groups :=
  gs.map (fun p =>
    if p.1 = fp then
      (p.1, { p.2 with contents := p.2.contents ++ [content],
                       types := addType p.2.types ctype })
    else p)

/-- One iteration of the grouping loop: skip when the file already has a
chunk with *equal* text (`content in file_chunks[fp]["content"]` is list
membership), otherwise create or extend the file's group. -/
def groupStep (gs : Groups) (r : VSDoc × ℚ) : Groups :=
  let doc := r.1
  let fp := doc.metaFile
  match lookupGroup gs fp with
  | some fc =>
    if doc.content ∈ fc.contents then gs
    else updateGroup gs fp doc.content doc.metaType
  | none =>
    gs ++ [(fp, { file_name := basename fp
                  contents := [doc.content]
                  types := [doc.metaType] })]

/-- The grouping loop over all search results. -/
def groupHits (results : List (VSDoc × ℚ)) : Groups :=
  results.foldl groupStep []

/-- The hardcoded non-default-language suffix tuple. -/
def NON_DEFAULT_EXTS : List String :=
  [".java", ".js", ".ts", ".cpp", ".c", ".cs", ".go"]

/-- `file_path.lower().endswith(('.java', '.js', ...))`. -/
def nonDefaultExt (fp : String) : Bool :=
  NON_DEFAULT_EXTS.any (fun e => strEnds (strLower fp) e)

/-- Pass A of file selection: include non-default-language files, in
group order, while fewer than `k` files are included. -/
def passA (k : Nat) (gs : Groups) (acc : List String) : List String :=
  gs.foldl (fun acc p =>
    if nonDefaultExt p.1 = true ∧ p.1 ∉ acc ∧ acc.length < k then acc ++ [p.1]
    else acc) acc

/-- Pass B: fill remaining slots with any not-yet-included file, in
group order. -/
def passB (k : Nat) (gs : Groups) (acc : List String) : List String :=
  gs.foldl (fun acc p =>
    if p.1 ∉ acc ∧ acc.length < k then acc ++ [p.1]
    else acc) acc

/-- `included_files` in inclusion order after both passes. -/
def selectFiles (k : Nat) (gs : Groups) : List String :=
  passB k gs (passA k gs [])

/-- The context section appended when a file is included. -/
def renderSection (gs : Groups) (fp : String) : String :=
  match lookupGroup gs fp with
  | some fc =>
    "--- File: " ++ fc.file_name ++ " ---\n" ++
      String.intercalate "\n" fc.contents ++ "\n\n"
  | none => ""

/-- The assembled context string: sections in inclusion order. -/
def renderContext (gs : Groups) (sel : List String) : String :=
  String.join (sel.map (renderSection gs))

/-- Steps 2–4 of `process_query`: group, select, render. -/
def assembleContext (results : List (VSDoc × ℚ)) (k : Nat) : String :=
  let gs := groupHits results
  renderContext gs (selectFiles k gs)

/-- The Gemini prompt f-string. -/
def promptFor (context query : String) : String :=
  "\n        You are a code expert assistant. Based on the following code context, please answer the user's question.\n        Be specific, detailed, and reference relevant parts of the code in your answer.\n\n        CODE CONTEXT:\n        " ++
    context ++ "\n\n        QUESTION: " ++ query ++ "\n        "

/-- The id multiset of all nodes of definition-family capture entries,
in iteration order. -/
def allDefIds (cd : CapturesDict) : List Nat :=
  ((cd.filter (fun p => strEnds p.1 ".definition")).map
    (fun p => p.2.map (fun d => d.nid))).flatten

/-- The element list the extraction loop produces from the entries of a
captures dict whose node ids do not repeat: one element per definition
node of each definition-family entry, in iteration order, named by the
first contained name-family node (`"Unknown"` when none). -/
def expectedElementsOn (filePath : String) (cd entries : CapturesDict) : List Element :=
  ((entries.filter (fun p => strEnds p.1 ".definition")).map (fun p =>
    p.2.map (fun d => mkElement filePath (elementTypeBase p.1)
      (findElementName (lookupCaptures cd (elementTypeBase p.1 ++ ".name")) d) d))).flatten

/-- Strict ranking order used by the stable ascending argsort: smaller
score first, equal scores in ascending index (insertion) order. -/
def rankLT (scores : List ℚ) (i j : Nat) : Prop :=
  scores.getD i 0 < scores.getD j 0 ∨ (scores.getD i 0 = scores.getD j 0 ∧ i < j)

/-- A tree-sitter environment whose grammars all load, never raise, and
capture nothing — enough to exercise the unresolved-extension path. -/
def trivEnv : TSEnv :=
  { loadable := fun _ => true, parseRaises := fun _ _ => false, captures := fun _ _ => [] }

/-- Concrete fixtures used by witnesses and counterexamples. -/
def pyDocA : VSDoc :=
  { content := "def alpha(): pass", metaDescription := "Function alpha from alpha.py"
    metaType := "function", metaFile := "alpha.py", metaId := "id-a", metaName := "alpha" }

def pyDocB : VSDoc :=
  { content := "def beta(): pass", metaDescription := "Function beta from beta.py"
    metaType := "function", metaFile := "beta.py", metaId := "id-b", metaName := "beta" }

def javaDoc : VSDoc :=
  { content := "class Greeter {}", metaDescription := "Class Greeter from Greeter.java"
    metaType := "class", metaFile := "Greeter.java", metaId := "id-j", metaName := "Greeter" }

/-- A similarity function that scores every stored vector equally, as
cosine similarity does when all stored embeddings equal the query (e.g.
identical unit vectors, cosine `1` everywhere). -/
def constSim : Emb → Emb → ℚ :=
  fun _ _ => 1

/-- Concrete captures fixture: one `function.definition` family with two
definition nodes, and one `function.name` node contained in the first
definition's byte span only. -/
def defNode1 : TSNode :=
  { nid := 1, startByte := 0, endByte := 20, startRow := 0, endRow := 1,
    text := "def alpha(): pass" }

def nameNode1 : TSNode :=
  { nid := 3, startByte := 4, endByte := 9, startRow := 0, endRow := 0, text := "alpha" }

def defNode2 : TSNode :=
  { nid := 2, startByte := 30, endByte := 45, startRow := 3, endRow := 4,
    text := "lambda x: x" }

def c8Captures : CapturesDict :=
  [("function.definition", [defNode1, defNode2]), ("function.name", [nameNode1])]

/-- `CodeRAG.process_query`, with the embedding model and the Gemini
call abstracted; `gemini_model.generate_content` either returns text or
raises, which the try/except turns into an error-message first
component. -/
def process_query (sim : Emb → Emb → ℚ) (enc : String → Emb)
    (llm : String → Except String String) (s : VectorStore) (query : String)
    (k : Nat) : String × String :=
  let qe := enc query
  let results := similarity_search sim s qe (k + 5)
  if results.isEmpty then
    ("No relevant code found to answer your question.", "No context available.")
  else
    let context := assembleContext results k
    match llm (promptFor context query) with
    | Except.ok t => (t, context)
    | Except.error e => ("Error generating response: " ++ e, context)

/-! ## Theorems -/

/-- The step count of a strided range over `n` items: peeling one
window of `s + 1` items off the front removes exactly one step. -/
theorem rangeStep_count_succ (s n : Nat) (hn : 1 ≤ n) :
    (n + s) / (s + 1) = ((n - (s + 1)) + s) / (s + 1) + 1 := by
  rcases le_or_lt (s + 1) n with hc | hc
  · rw [Nat.div_eq_sub_div (Nat.succ_pos s) (by omega : s + 1 ≤ n + s)]
    congr 2
    omega
  · have h2 : n - (s + 1) = 0 := by omega
    rw [Nat.div_eq_sub_div (Nat.succ_pos s) (by omega : s + 1 ≤ n + s),
      Nat.div_eq_of_lt (by omega : n + s - (s + 1) < s + 1), h2,
      Nat.div_eq_of_lt (by omega : 0 + s < s + 1)]

/-- The 100-line (resp. 32-text) windows taken at the strided-range
start offsets concatenate back to the original list: the windows are
contiguous, non-overlapping, and cover every element exactly once. -/
theorem rangeStep_windows_flatten (s t : Nat) (hst : t = s + 1) (l : List α) :
    ((rangeStep l.length s).map (fun i => (l.drop i).take t)).flatten = l := by
  subst hst
  by_cases h0 : l = []
  · subst h0
    simp [rangeStep, Nat.div_eq_of_lt (Nat.lt_succ_of_le (Nat.le_refl s))]
  · have hlen : 1 ≤ l.length := List.length_pos.mpr h0
    have hdrop : (l.drop (s + 1)).length = l.length - (s + 1) := List.length_drop _ _
    have hdiv : (l.length + s) / (s + 1) =
        ((l.drop (s + 1)).length + s) / (s + 1) + 1 := by
      rw [hdrop]
      exact rangeStep_count_succ s l.length hlen
    rw [rangeStep, hdiv, List.range_succ_eq_map]
    simp only [List.map_cons, List.map_map, List.flatten_cons, Nat.zero_mul,
      List.drop_zero]
    have ih := rangeStep_windows_flatten s (s + 1) rfl (l.drop (s + 1))
    rw [rangeStep] at ih
    have hmap : (List.range (((l.drop (s + 1)).length + s) / (s + 1))).map
        ((fun i => (l.drop i).take (s + 1)) ∘ (fun m => m * (s + 1)) ∘ Nat.succ) =
        (List.range (((l.drop (s + 1)).length + s) / (s + 1))).map
          ((fun i => ((l.drop (s + 1)).drop i).take (s + 1)) ∘
            (fun m => m * (s + 1))) := by
      refine List.map_congr_left (fun m _ => ?_)
      simp only [Function.comp_apply]
      rw [List.drop_drop]
      congr 2
      simp only [Nat.succ_eq_add_one]
      ring
    rw [hmap, ← List.map_map, ih, List.take_append_drop]
termination_by l.length
decreasing_by
  simp only [List.length_drop]
  omega

/-- The batched `model.encode` loop embeds each text exactly once, in
order. -/
theorem batchedEncode_eq_map (enc : String → Emb) (texts : List String) :
    batchedEncode enc texts = texts.map enc := by
  unfold batchedEncode
  have h1 : (fun i => ((texts.drop i).take 32).map enc) =
      (List.map enc) ∘ (fun i => (texts.drop i).take 32) := rfl
  rw [h1, ← List.map_map, ← List.map_flatten,
    rangeStep_windows_flatten 31 32 rfl texts]

/-- Claim C1 (counterexample): for the unrecognized extension `.xyz` on
a non-empty file, `process_file` returns the empty list while the
chunking fallback would return a non-empty `code_chunk` list, so the
claimed fallback-to-chunking behaviour does not hold. -/
theorem C1_no_fallback_counterexample :
    process_file trivEnv "notes.xyz" "hello" = [] ∧
    process_non_python_file "notes.xyz" "hello" ≠ [] := by
  decide

/-- Claim C1 (amended): `process_file` resolves the language from the
lowercased extension; when resolution succeeds and the grammar loads,
nothing raises and a query is registered, it returns exactly the
structural extractor's elements; in every other case (unresolved
extension, unloadable grammar, exception, missing query — and hence
also when extraction yields zero elements) it returns the empty list.
The chunking fallback is never invoked on any path. -/
theorem C1_process_file_decision (env : TSEnv) (path content : String) :
    process_file env path content = [] ∨
    ∃ lang, resolveLang path = some lang ∧ env.loadable lang = true ∧
      env.parseRaises lang content = false ∧ hasQuery lang = true ∧
      process_file env path content =
        extractFromCaptures path (env.captures lang content) := by
  cases hres : resolveLang path with
  | none => exact Or.inl (by simp [process_file, hres])
  | some lang =>
    have hpf : process_file env path content =
        extract_elements_with_tree_sitter env path lang content := by
      simp [process_file, hres]
    cases hl : env.loadable lang with
    | false =>
      exact Or.inl (by simp [hpf, extract_elements_with_tree_sitter, hl])
    | true =>
      cases hp : env.parseRaises lang content with
      | true =>
        exact Or.inl (by simp [hpf, extract_elements_with_tree_sitter, hl, hp])
      | false =>
        cases hq : hasQuery lang with
        | false =>
          exact Or.inl (by simp [hpf, extract_elements_with_tree_sitter, hl, hp, hq])
        | true =>
          exact Or.inr ⟨lang, rfl, hl, hp, hq,
            by simp [hpf, extract_elements_with_tree_sitter, hl, hp, hq]⟩

/-- Claim C2: the extension lookup itself is case-insensitive and
unmapped extensions resolve to none, but the extensionless filename
conventions never resolve: `os.path.splitext` gives `Makefile` and
`Dockerfile` the empty extension, so the `LANGUAGE_MAP` entries
`("Makefile", "make")` and `("Dockerfile", "dockerfile")` are present
yet unreachable from `process_file`'s lookup. -/
theorem C2_extensionless_names_never_resolve :
    resolveLang "Makefile" = none ∧
    resolveLang "Dockerfile" = none ∧
    ("Makefile", "make") ∈ LANGUAGE_MAP ∧
    ("Dockerfile", "dockerfile") ∈ LANGUAGE_MAP ∧
    resolveLang "Main.PY" = some "python" ∧
    resolveLang "notes.xyz" = none := by
  decide

/-- Claim C3 (counterexample): adding the same one-document batch twice
leaves two records with the same id in the collection, so retrying
`add_documents` silently accumulates duplicates. -/
theorem C3_retry_duplicates_counterexample :
    ((add_documents (add_documents emptyStore [pyDocA] [[1, 0]]) [pyDocA]
      [[1, 0]]).documents.filter (fun d => d.metaId = "id-a")).length = 2 := by
  decide

/-- Claim C3 (amended): `add_documents` appends unconditionally and
performs no id-based deduplication, so calling it twice with the same
batch increases every id's record count by twice the id's count in the
batch; idempotence under retry does not hold. -/
theorem C3_add_documents_accumulates (s : VectorStore) (ds : List VSDoc)
    (es : List Emb) (i : String) :
    ((add_documents (add_documents s ds es) ds es).documents.filter
        (fun d => d.metaId = i)).length =
      (s.documents.filter (fun d => d.metaId = i)).length +
        2 * (ds.filter (fun d => d.metaId = i)).length := by
  simp [add_documents, List.filter_append]
  ring

/-- Claim C10: for any query whose search returns at least one result,
the LLM call's failure is caught: `process_query` returns the pair of
an error-message string and the assembled context, and that context
component is exactly the context returned on the success branch. -/
theorem C10_llm_failure_returns_context (sim : Emb → Emb → ℚ)
    (enc : String → Emb) (s : VectorStore) (query : String) (k : Nat)
    (e t : String) (h : similarity_search sim s (enc query) (k + 5) ≠ []) :
    (process_query sim enc (fun _ => Except.error e) s query k).1 =
        "Error generating response: " ++ e ∧
    (process_query sim enc (fun _ => Except.error e) s query k).2 =
        assembleContext (similarity_search sim s (enc query) (k + 5)) k ∧
    (process_query sim enc (fun _ => Except.ok t) s query k).2 =
        (process_query sim enc (fun _ => Except.error e) s query k).2 := by
  unfold process_query
  cases hres : similarity_search sim s (enc query) (k + 5) with
  | nil => exact absurd hres h
  | cons a as => simp [hres]

/-- Membership through stable insertion. -/
theorem insertIdx_mem (scores : List ℚ) (i x : Nat) (acc : List Nat) :
    x ∈ insertIdx scores i acc ↔ x = i ∨ x ∈ acc := by
  induction acc with
  | nil => simp [insertIdx]
  | cons j js ih =>
    rw [insertIdx]
    split
    · simp only [List.mem_cons, ih]
      tauto
    · simp [List.mem_cons]

/-- Inserting an index larger than everything already present preserves
the strict ranking order. -/
theorem insertIdx_pairwise (scores : List ℚ) (i : Nat) (acc : List Nat)
    (hp : acc.Pairwise (rankLT scores)) (hlt : ∀ j ∈ acc, j < i) :
    (insertIdx scores i acc).Pairwise (rankLT scores) := by
  induction acc with
  | nil => simp [insertIdx, rankLT]
  | cons j js ih =>
    rw [List.pairwise_cons] at hp
    rw [insertIdx]
    split
    case isTrue hle =>
      rw [List.pairwise_cons]
      refine ⟨fun y hy => ?_, ih hp.2 (fun x hx => hlt x (List.mem_cons_of_mem j hx))⟩
      rw [insertIdx_mem] at hy
      rcases hy with rfl | hy
      · rcases lt_or_eq_of_le hle with hlt2 | heq
        · exact Or.inl hlt2
        · exact Or.inr ⟨heq, hlt j (List.mem_cons_self j js)⟩
      · exact hp.1 y hy
    case isFalse hgt =>
      rw [List.pairwise_cons]
      refine ⟨fun y hy => ?_, List.Pairwise.cons hp.1 hp.2⟩
      rcases List.mem_cons.mp hy with rfl | hy
      · exact Or.inl (lt_of_not_le hgt)
      · rcases hp.1 y hy with h1 | h1
        · exact Or.inl (lt_trans (lt_of_not_le hgt) h1)
        · exact Or.inl (lt_of_lt_of_le (lt_of_not_le hgt) (le_of_eq h1.1))

/-- The accumulated argsort of the first `n` indices is ordered by
`rankLT` and mentions only indices below `n`. -/
theorem argsort_invariant (scores : List ℚ) (n : Nat) :
    ((List.range n).foldl (fun acc i => insertIdx scores i acc) []).Pairwise
        (rankLT scores) ∧
    ∀ x ∈ (List.range n).foldl (fun acc i => insertIdx scores i acc) [], x < n := by
  induction n with
  | zero => simp
  | succ n ih =>
    rw [List.range_succ, List.foldl_append, List.foldl_cons, List.foldl_nil]
    refine ⟨insertIdx_pairwise scores n _ ih.1 ih.2, fun x hx => ?_⟩
    rw [insertIdx_mem] at hx
    rcases hx with rfl | hx
    · omega
    · exact lt_trans (ih.2 x hx) (Nat.lt_succ_self n)

/-- `np.argsort` output is sorted ascending by score with ascending
index on ties. -/
theorem argsortAsc_pairwise (scores : List ℚ) :
    (argsortAsc scores).Pairwise (rankLT scores) :=
  (argsort_invariant scores scores.length).1

/-- Every argsort output index is a valid index into the score list. -/
theorem argsortAsc_mem (scores : List ℚ) :
    ∀ x ∈ argsortAsc scores, x < scores.length :=
  (argsort_invariant scores scores.length).2

/-- Claim C4 (counterexample): with two stored documents whose
similarity to the query is exactly equal (`constSim` realizes cosine
similarity when both stored embeddings equal the query vector, cosine
`1` for each), `similarity_search` returns the later-inserted document
first, so ties are not broken by insertion order. -/
theorem C4_tie_order_counterexample :
    similarity_search constSim
        { documents := [pyDocA, pyDocB], embeddings := [[1, 0], [1, 0]] }
        [1, 0] 10 = [(pyDocB, 1), (pyDocA, 1)] := by
  decide

/-- Claim C4 (amended): `similarity_search` returns documents ranked by
similarity score, higher score first; documents whose scores are
exactly equal appear in *reverse* insertion order (larger stored index
first), because the descending ranking is the reversal of a stable
ascending argsort. -/
theorem C4_ranking (sim : Emb → Emb → ℚ) (s : VectorStore) (q : Emb) (k : Nat) :
    (topIndices (simScores sim s q) k).Pairwise
        (fun i j => rankLT (simScores sim s q) j i) ∧
    (similarity_search sim s q k).Pairwise (fun r1 r2 => r2.2 ≤ r1.2) ∧
    similarity_search sim s q k =
      (if s.embeddings.isEmpty then [] else
        (topIndices (simScores sim s q) k).map
          (fun i => (s.documents.getD i default, (simScores sim s q).getD i 0))) := by
  have hrev : ((argsortAsc (simScores sim s q)).reverse).Pairwise
      (fun i j => rankLT (simScores sim s q) j i) :=
    (List.pairwise_reverse).mpr (argsortAsc_pairwise (simScores sim s q))
  have htop : (topIndices (simScores sim s q) k).Pairwise
      (fun i j => rankLT (simScores sim s q) j i) :=
    List.Pairwise.sublist (List.take_sublist k _) hrev
  refine ⟨htop, ?_, rfl⟩
  unfold similarity_search
  split
  · exact List.Pairwise.nil
  · refine List.Pairwise.map _ (fun i j hij => ?_) htop
    rcases hij with h1 | h1
    · exact le_of_lt h1
    · exact le_of_eq h1.1

/-- Claim C9: the documents/embeddings length invariant across fresh
construction, persist-then-load, `add_documents` with equally many
documents and embeddings, `delete_collection`, and
`CodeRAG.add_documents` (which always supplies one embedding per
formatted document); consequently every index chosen by
`similarity_search`'s argsort is a valid index into `documents`. -/
theorem C9_store_length_invariant :
    emptyStore.documents.length = emptyStore.embeddings.length ∧
    (∀ (s : VectorStore) (ds : List VSDoc) (es : List Emb),
      s.documents.length = s.embeddings.length → ds.length = es.length →
      (add_documents s ds es).documents.length =
        (add_documents s ds es).embeddings.length) ∧
    (∀ s : VectorStore,
      (delete_collection s).documents.length =
        (delete_collection s).embeddings.length) ∧
    (∀ s : VectorStore, s.documents.length = s.embeddings.length →
      (loadStore (some (persistData s))).documents.length =
        (loadStore (some (persistData s))).embeddings.length) ∧
    (∀ (enc : String → Emb) (s : VectorStore) (docs : List InputDoc),
      s.documents.length = s.embeddings.length →
      (CodeRAG_add_documents enc s docs).documents.length =
        (CodeRAG_add_documents enc s docs).embeddings.length) ∧
    (∀ (sim : Emb → Emb → ℚ) (s : VectorStore) (q : Emb) (k : Nat),
      s.documents.length = s.embeddings.length →
      ∀ i ∈ topIndices (simScores sim s q) k, i < s.documents.length) := by
  refine ⟨rfl, ?_, ?_, ?_, ?_, ?_⟩
  · intro s ds es h1 h2
    simp [add_documents, h1, h2]
  · intro s
    rfl
  · intro s h
    simpa [loadStore, persistData] using h
  · intro enc s docs h
    unfold CodeRAG_add_documents
    split
    · exact h
    · simp [add_documents, batchedEncode_eq_map, h]
  · intro sim s q k h i hi
    have h1 : i ∈ (argsortAsc (simScores sim s q)).reverse :=
      List.mem_of_mem_take hi
    rw [List.mem_reverse] at h1
    have h2 := argsortAsc_mem (simScores sim s q) i h1
    simp only [simScores, List.length_map] at h2
    omega


/-- Witness for C9: the add-documents component at a concrete store. -/
theorem C9_witness :
    emptyStore.documents.length = emptyStore.embeddings.length ∧
    ([pyDocA].length = [[(1 : ℚ)]].length) ∧
    (add_documents emptyStore [pyDocA] [[(1 : ℚ)]]).documents.length =
      (add_documents emptyStore [pyDocA] [[(1 : ℚ)]]).embeddings.length :=
  ⟨rfl, rfl, C9_store_length_invariant.2.1 emptyStore [pyDocA] [[(1 : ℚ)]] rfl rfl⟩

/-- `filterMap` emits exactly as many elements as the predicate
matching its `isSome` behaviour keeps. -/
theorem length_filterMap_eq {α β : Type} (f : α → Option β) (p : α → Bool)
    (l : List α) (h : ∀ a, (f a).isSome = p a) :
    (l.filterMap f).length = (l.filter p).length := by
  induction l with
  | nil => rfl
  | cons a l ih =>
    rw [List.filterMap_cons, List.filter_cons]
    cases hfa : f a with
    | none =>
      have hp : p a = false := by rw [← h a, hfa]; rfl
      simp [hp, ih]
    | some b =>
      have hp : p a = true := by rw [← h a, hfa]; rfl
      simp [hp, ih]

/-- Claim C7: the chunking fallback on a file whose newline split has
`N` lines takes `ceil(N/100)` windows; the windows concatenate back to
the whole line list (contiguous, non-overlapping, covering every line
exactly once); exactly the windows whose text is non-whitespace after
stripping are emitted; and every emitted chunk carries the absolute
1-based line range `(i+1, min(i+100, N))` of its window, independent of
any earlier dropped window. -/
theorem C7_chunking (path content : String) :
    (rangeStep (strSplit content '\n').length 99).length =
      ((strSplit content '\n').length + 99) / 100 ∧
    ((rangeStep (strSplit content '\n').length 99).map
        (fun i => ((strSplit content '\n').drop i).take 100)).flatten =
      strSplit content '\n' ∧
    (process_non_python_file path content).length =
      ((rangeStep (strSplit content '\n').length 99).filter
        (fun i => !(strStrip (chunkWindowText (strSplit content '\n') i) == ""))).length ∧
    ∀ e ∈ process_non_python_file path content,
      ∃ i ∈ rangeStep (strSplit content '\n').length 99,
        e.etype = "code_chunk" ∧
        e.code = chunkWindowText (strSplit content '\n') i ∧
        strStrip e.code ≠ "" ∧
        e.lineStart = i + 1 ∧
        e.lineEnd = min (i + 100) (strSplit content '\n').length := by
  refine ⟨by simp [rangeStep], rangeStep_windows_flatten 99 100 rfl _, ?_, ?_⟩
  · unfold process_non_python_file
    refine length_filterMap_eq _ _ _ (fun i => ?_)
    by_cases hc : strStrip (chunkWindowText (strSplit content '\n') i) = "" <;>
      simp [hc]
  · intro e he
    unfold process_non_python_file at he
    rw [List.mem_filterMap] at he
    obtain ⟨i, hi, hf⟩ := he
    by_cases hc : strStrip (chunkWindowText (strSplit content '\n') i) = ""
    · rw [if_pos hc] at hf
      cases hf
    · rw [if_neg hc] at hf
      obtain rfl := Option.some_inj.mp hf
      exact ⟨i, hi, rfl, rfl, hc, rfl, rfl⟩

/-- Witness for C7's per-chunk clause on a concrete two-line file. -/
theorem C7_witness :
    (⟨"code_chunk", none, "a\nb", "n.xyz", 1, 2,
      "Code chunk (lines 1-2) from n.xyz"⟩ : Element) ∈
        process_non_python_file "n.xyz" "a\nb" ∧
    ∃ i ∈ rangeStep (strSplit "a\nb" '\n').length 99,
      (⟨"code_chunk", none, "a\nb", "n.xyz", 1, 2,
        "Code chunk (lines 1-2) from n.xyz"⟩ : Element).etype = "code_chunk" ∧
      (⟨"code_chunk", none, "a\nb", "n.xyz", 1, 2,
        "Code chunk (lines 1-2) from n.xyz"⟩ : Element).code =
          chunkWindowText (strSplit "a\nb" '\n') i ∧
      strStrip (⟨"code_chunk", none, "a\nb", "n.xyz", 1, 2,
        "Code chunk (lines 1-2) from n.xyz"⟩ : Element).code ≠ "" ∧
      (⟨"code_chunk", none, "a\nb", "n.xyz", 1, 2,
        "Code chunk (lines 1-2) from n.xyz"⟩ : Element).lineStart = i + 1 ∧
      (⟨"code_chunk", none, "a\nb", "n.xyz", 1, 2,
        "Code chunk (lines 1-2) from n.xyz"⟩ : Element).lineEnd =
          min (i + 100) (strSplit "a\nb" '\n').length :=
  ⟨by decide, (C7_chunking "n.xyz" "a\nb").2.2.2 _ (by decide)⟩

/-- Unfolding `allDefIds` over a leading entry. -/
theorem allDefIds_cons (c : String) (d : List TSNode) (r : CapturesDict) :
    allDefIds ((c, d) :: r) =
      if strEnds c ".definition" = true then
        d.map (fun x => x.nid) ++ allDefIds r
      else allDefIds r := by
  unfold allDefIds
  rw [List.filter_cons]
  split
  · simp
  · simp

/-- When no definition node in the batch was seen before and the batch
ids do not repeat, the inner loop emits one element per node, in order,
and records exactly the batch's ids as newly seen. -/
theorem processDefs_all_fresh (fp base : String) (nn : List TSNode)
    (ds : List TSNode) (seen : List Nat)
    (hds : (ds.map (fun d => d.nid)).Nodup)
    (hdisj : ∀ d ∈ ds, d.nid ∉ seen) :
    processDefs fp base nn ds seen =
      (ds.map (fun d => mkElement fp base (findElementName nn d) d),
        (ds.map (fun d => d.nid)).reverse ++ seen) := by
  induction ds generalizing seen with
  | nil => simp [processDefs]
  | cons d ds ih =>
    rw [processDefs, if_neg (hdisj d (List.mem_cons_self d ds))]
    rw [List.map_cons, List.nodup_cons] at hds
    have hdisj' : ∀ x ∈ ds, x.nid ∉ d.nid :: seen := by
      intro x hx
      rw [List.mem_cons]
      push_neg
      refine ⟨fun heq => hds.1 ?_, hdisj x (List.mem_cons_of_mem d hx)⟩
      rw [← heq]
      exact List.mem_map_of_mem (fun y => y.nid) hx
    rw [ih (d.nid :: seen) hds.2 hdisj']
    simp [List.reverse_cons, List.append_assoc]

/-- With globally non-repeating definition-node ids, the outer loop
over the capture entries emits exactly the expected elements. -/
theorem extractGo_characterization (fp : String) (cd : CapturesDict)
    (entries : CapturesDict) (seen : List Nat)
    (hnodup : (allDefIds entries).Nodup)
    (hdisj : ∀ x ∈ allDefIds entries, x ∉ seen) :
    extractGo fp cd entries seen = expectedElementsOn fp cd entries := by
  induction entries generalizing seen with
  | nil => simp [extractGo, expectedElementsOn]
  | cons p rest ih =>
    obtain ⟨capName, defs⟩ := p
    rw [allDefIds_cons] at hnodup hdisj
    rw [extractGo]
    unfold expectedElementsOn
    rw [List.filter_cons]
    by_cases hdef : strEnds capName ".definition" = true
    · rw [if_pos hdef] at hnodup hdisj
      simp only [hdef, if_true, ite_true]
      have hfresh := processDefs_all_fresh fp (elementTypeBase capName)
        (lookupCaptures cd (elementTypeBase capName ++ ".name")) defs seen
        (List.Nodup.of_append_left hnodup)
        (fun d hd => hdisj d.nid
          (List.mem_append_left _ (List.mem_map_of_mem (fun x => x.nid) hd)))
      rw [hfresh]
      have hdisjrest : ∀ x ∈ allDefIds rest,
          x ∉ (defs.map (fun d => d.nid)).reverse ++ seen := by
        intro x hx
        rw [List.mem_append, List.mem_reverse]
        push_neg
        exact ⟨fun hmem =>
          (List.disjoint_of_nodup_append hnodup) hmem hx,
          hdisj x (List.mem_append_right _ hx)⟩
      rw [ih ((defs.map (fun d => d.nid)).reverse ++ seen)
        (List.Nodup.of_append_right hnodup) hdisjrest]
      simp [expectedElementsOn]
    · rw [if_neg hdef] at hnodup hdisj
      simp only [hdef, if_false, ite_false]
      have hb : strEnds capName ".definition" = false := by
        revert hdef
        cases strEnds capName ".definition" <;> simp
      simp only [hb, Bool.false_eq_true, if_false, ite_false]
      exact ih seen hnodup hdisj

/-- Claim C8: for every definition-family capture node (in a captures
dict whose definition-node ids do not repeat, as tree-sitter node
identities never do), an element is emitted whose name is the decoded
text of a same-family name capture byte-contained in the definition
node, and `"Unknown"` when no contained name capture exists — the
element is emitted either way. -/
theorem C8_definition_names (path : String) (cd : CapturesDict)
    (hids : (allDefIds cd).Nodup) (capName : String) (defs : List TSNode)
    (hmem : (capName, defs) ∈ cd) (hdef : strEnds capName ".definition" = true)
    (d : TSNode) (hd : d ∈ defs) :
    ∃ e ∈ extractFromCaptures path cd,
      e.code = d.text ∧
      e.etype = elementTypeBase capName ∧
      ((∃ n ∈ lookupCaptures cd (elementTypeBase capName ++ ".name"),
          d.startByte ≤ n.startByte ∧ n.endByte ≤ d.endByte ∧
            e.name = some n.text) ∨
        ((∀ n ∈ lookupCaptures cd (elementTypeBase capName ++ ".name"),
            ¬(d.startByte ≤ n.startByte ∧ n.endByte ≤ d.endByte)) ∧
          e.name = some "Unknown")) := by
  rw [extractFromCaptures,
    extractGo_characterization path cd cd [] hids (by simp)]
  refine ⟨mkElement path (elementTypeBase capName)
    (findElementName (lookupCaptures cd (elementTypeBase capName ++ ".name")) d) d,
    ?_, rfl, rfl, ?_⟩
  · unfold expectedElementsOn
    rw [List.mem_flatten]
    exact ⟨_, List.mem_map_of_mem _ (List.mem_filter.mpr ⟨hmem, hdef⟩),
      List.mem_map_of_mem _ hd⟩
  · cases hfind : (lookupCaptures cd (elementTypeBase capName ++ ".name")).find?
        (fun n => decide (d.startByte ≤ n.startByte) &&
          decide (n.endByte ≤ d.endByte)) with
    | some n =>
      left
      have hn := List.mem_of_find?_eq_some hfind
      have hp := List.find?_some hfind
      rw [Bool.and_eq_true, decide_eq_true_eq, decide_eq_true_eq] at hp
      exact ⟨n, hn, hp.1, hp.2, by simp [mkElement, findElementName, hfind]⟩
    | none =>
      right
      constructor
      · intro n hn hcon
        have hnone := List.find?_eq_none.mp hfind n hn
        simp [hcon.1, hcon.2] at hnone
      · simp [mkElement, findElementName, hfind]

/-- A successful group lookup names an entry of the list. -/
theorem lookupGroup_mem (gs : Groups) (fp : String) (fc : FileChunk)
    (h : lookupGroup gs fp = some fc) : (fp, fc) ∈ gs := by
  unfold lookupGroup at h
  cases hfind : gs.find? (fun p => p.1 = fp) with
  | none => rw [hfind] at h; cases h
  | some p =>
    rw [hfind] at h
    have hp := List.find?_some hfind
    have hmem := List.mem_of_find?_eq_some hfind
    rw [decide_eq_true_eq] at hp
    cases h
    rw [← hp]
    exact hmem

/-- A failed group lookup means no entry has the key. -/
theorem lookupGroup_none (gs : Groups) (fp : String)
    (h : lookupGroup gs fp = none) : ∀ p ∈ gs, p.1 ≠ fp := by
  unfold lookupGroup at h
  cases hfind : gs.find? (fun p => p.1 = fp) with
  | none =>
    intro p hp
    have := List.find?_eq_none.mp hfind p hp
    simpa using this
  | some p => rw [hfind] at h; cases h

/-- With non-repeating keys, an entry's value is determined by its
key. -/
theorem key_unique (gs : Groups) (h : (gs.map Prod.fst).Nodup)
    {fp : String} {a b : FileChunk} (ha : (fp, a) ∈ gs) (hb : (fp, b) ∈ gs) :
    a = b := by
  induction gs with
  | nil => cases ha
  | cons p gs ih =>
    rw [List.map_cons, List.nodup_cons] at h
    rcases List.mem_cons.mp ha with ha' | ha' <;>
      rcases List.mem_cons.mp hb with hb' | hb'
    · have hab : (fp, a) = (fp, b) := ha'.trans hb'.symm
      exact ((Prod.mk.injEq fp a fp b).mp hab).2
    · exfalso
      have hkey : p.1 = fp := by rw [← ha']
      apply h.1
      rw [hkey]
      simpa using List.mem_map_of_mem Prod.fst hb'
    · exfalso
      have hkey : p.1 = fp := by rw [← hb']
      apply h.1
      rw [hkey]
      simpa using List.mem_map_of_mem Prod.fst ha'
    · exact ih h.2 ha' hb'

/-- `updateGroup` leaves the key sequence unchanged. -/
theorem updateGroup_keys (gs : Groups) (fp c t : String) :
    (updateGroup gs fp c t).map Prod.fst = gs.map Prod.fst := by
  unfold updateGroup
  rw [List.map_map]
  refine List.map_congr_left (fun p _ => ?_)
  simp only [Function.comp_apply]
  split <;> rfl

/-- Every entry of `updateGroup gs` is the image of an entry of `gs`
with the same key and with contents either unchanged or extended by the
appended chunk. -/
theorem updateGroup_mem (gs : Groups) (fp c t : String) (p : String × FileChunk)
    (hp : p ∈ updateGroup gs fp c t) :
    ∃ q ∈ gs, p.1 = q.1 ∧
      (p.2 = q.2 ∨ (q.1 = fp ∧
        p.2 = { q.2 with contents := q.2.contents ++ [c],
                         types := addType q.2.types t })) := by
  unfold updateGroup at hp
  rw [List.mem_map] at hp
  obtain ⟨q, hq, hqe⟩ := hp
  refine ⟨q, hq, ?_⟩
  by_cases hk : q.1 = fp
  · rw [if_pos hk] at hqe
    rw [← hqe]
    exact ⟨rfl, Or.inr ⟨hk, rfl⟩⟩
  · rw [if_neg hk] at hqe
    rw [← hqe]
    exact ⟨rfl, Or.inl rfl⟩

/-- `groupStep` preserves key uniqueness and per-group
duplicate-freeness of contents. -/
theorem groupStep_wf (gs : Groups) (r : VSDoc × ℚ)
    (hkeys : (gs.map Prod.fst).Nodup)
    (hcont : ∀ p ∈ gs, p.2.contents.Nodup) :
    ((groupStep gs r).map Prod.fst).Nodup ∧
      ∀ p ∈ groupStep gs r, p.2.contents.Nodup := by
  unfold groupStep
  cases hlook : lookupGroup gs r.1.metaFile with
  | some fc =>
    by_cases hdup : r.1.content ∈ fc.contents
    · simp only [hlook, hdup, if_pos]
      exact ⟨hkeys, hcont⟩
    · simp only [hlook, hdup, if_neg, not_false_iff]
      constructor
      · rw [updateGroup_keys]
        exact hkeys
      · intro p hp
        obtain ⟨q, hq, hk, hval | ⟨hqk, hval⟩⟩ := updateGroup_mem _ _ _ _ _ hp
        · rw [hval]
          exact hcont q hq
        · have hqfc : q.2 = fc := by
            have hmem := lookupGroup_mem gs r.1.metaFile fc hlook
            have hq' : (q.1, q.2) ∈ gs := hq
            rw [hqk] at hq'
            exact key_unique gs hkeys hq' hmem
          rw [hval, hqfc]
          rw [List.nodup_append]
          refine ⟨?_, by simp, fun x hx hx2 => ?_⟩
          · have hnd := hcont q hq
            rw [hqfc] at hnd
            exact hnd
          · rw [List.mem_singleton] at hx2
            rw [hx2] at hx
            exact hdup hx
  | none =>
    simp only [hlook]
    constructor
    · rw [List.map_append, List.nodup_append]
      refine ⟨hkeys, by simp, fun x hx => ?_⟩
      simp only [List.map_cons, List.map_nil, List.mem_singleton]
      intro hxe
      rw [List.mem_map] at hx
      obtain ⟨q, hq, hqx⟩ := hx
      exact lookupGroup_none gs r.1.metaFile hlook q hq (by rw [hqx, hxe])
    · intro p hp
      rcases List.mem_append.mp hp with hp | hp
      · exact hcont p hp
      · rw [List.mem_singleton] at hp
        rw [hp]
        simp

/-- The image of a present entry under `updateGroup` is present. -/
theorem updateGroup_mem_image (gs : Groups) (fp c t : String)
    (q : String × FileChunk) (hq : q ∈ gs) :
    (if q.1 = fp then
      (q.1, { q.2 with contents := q.2.contents ++ [c],
                       types := addType q.2.types t })
     else q) ∈ updateGroup gs fp c t := by
  unfold updateGroup
  exact List.mem_map_of_mem _ hq

/-- A group present before a step is still present after it, with all
its accepted contents retained. -/
theorem groupStep_mono (gs : Groups) (r : VSDoc × ℚ) (p : String × FileChunk)
    (hp : p ∈ gs) :
    ∃ fc', (p.1, fc') ∈ groupStep gs r ∧
      ∀ x ∈ p.2.contents, x ∈ fc'.contents := by
  unfold groupStep
  cases hlook : lookupGroup gs r.1.metaFile with
  | some fc =>
    simp only [hlook]
    by_cases hdup : r.1.content ∈ fc.contents
    · simp only [hdup, if_pos]
      exact ⟨p.2, hp, fun x hx => hx⟩
    · simp only [hdup, if_neg, not_false_iff]
      have hmm := updateGroup_mem_image gs r.1.metaFile r.1.content
        r.1.metaType p hp
      by_cases hk : p.1 = r.1.metaFile
      · rw [if_pos hk] at hmm
        exact ⟨_, hmm, fun x hx => List.mem_append_left _ hx⟩
      · rw [if_neg hk] at hmm
        exact ⟨p.2, hmm, fun x hx => hx⟩
  | none =>
    simp only [hlook]
    exact ⟨p.2, List.mem_append_left _ hp, fun x hx => hx⟩

/-- Each step records its own result's content in the result's file
group (either it was already accepted, or it is appended). -/
theorem groupStep_self (gs : Groups) (r : VSDoc × ℚ) :
    ∃ fc, (r.1.metaFile, fc) ∈ groupStep gs r ∧ r.1.content ∈ fc.contents := by
  unfold groupStep
  cases hlook : lookupGroup gs r.1.metaFile with
  | some fc =>
    simp only [hlook]
    by_cases hdup : r.1.content ∈ fc.contents
    · simp only [hdup, if_pos]
      exact ⟨fc, lookupGroup_mem _ _ _ hlook, hdup⟩
    · simp only [hdup, if_neg, not_false_iff]
      have hmm := updateGroup_mem_image gs r.1.metaFile r.1.content
        r.1.metaType (r.1.metaFile, fc) (lookupGroup_mem _ _ _ hlook)
      rw [if_pos (show (r.1.metaFile, fc).1 = r.1.metaFile from rfl)] at hmm
      exact ⟨_, hmm, List.mem_append_right _ (List.mem_singleton.mpr rfl)⟩
  | none =>
    simp only [hlook]
    exact ⟨_, List.mem_append_right _ (List.mem_singleton.mpr rfl),
      List.mem_singleton.mpr rfl⟩

/-- The grouping fold preserves key uniqueness and per-group
duplicate-freeness. -/
theorem foldl_groupStep_wf (rs : List (VSDoc × ℚ)) :
    ∀ gs : Groups, (gs.map Prod.fst).Nodup → (∀ p ∈ gs, p.2.contents.Nodup) →
      ((rs.foldl groupStep gs).map Prod.fst).Nodup ∧
        ∀ p ∈ rs.foldl groupStep gs, p.2.contents.Nodup := by
  induction rs with
  | nil => exact fun gs h1 h2 => ⟨h1, h2⟩
  | cons r rs ih =>
    intro gs h1 h2
    rw [List.foldl_cons]
    obtain ⟨h1', h2'⟩ := groupStep_wf gs r h1 h2
    exact ih (groupStep gs r) h1' h2'

/-- A group survives the whole fold with its contents retained. -/
theorem foldl_groupStep_mono (rs : List (VSDoc × ℚ)) :
    ∀ (gs : Groups) (p : String × FileChunk), p ∈ gs →
      ∃ fc', (p.1, fc') ∈ rs.foldl groupStep gs ∧
        ∀ x ∈ p.2.contents, x ∈ fc'.contents := by
  induction rs with
  | nil => exact fun gs p hp => ⟨p.2, hp, fun x hx => hx⟩
  | cons r rs ih =>
    intro gs p hp
    rw [List.foldl_cons]
    obtain ⟨fc1, hfc1, hsub1⟩ := groupStep_mono gs r p hp
    obtain ⟨fc2, hfc2, hsub2⟩ := ih (groupStep gs r) (p.1, fc1) hfc1
    exact ⟨fc2, hfc2, fun x hx => hsub2 x (hsub1 x hx)⟩

/-- Every processed result's content ends up recorded in its file's
group. -/
theorem foldl_groupStep_contains (rs : List (VSDoc × ℚ)) :
    ∀ (gs : Groups) (r : VSDoc × ℚ), r ∈ rs →
      ∃ fc, (r.1.metaFile, fc) ∈ rs.foldl groupStep gs ∧
        r.1.content ∈ fc.contents := by
  induction rs with
  | nil => intro gs r hr; cases hr
  | cons a rs ih =>
    intro gs r hr
    rw [List.foldl_cons]
    rcases List.mem_cons.mp hr with rfl | hr'
    · obtain ⟨fc, hfc, hcont⟩ := groupStep_self gs r
      obtain ⟨fc', hfc', hsub⟩ := foldl_groupStep_mono rs (groupStep gs r)
        (r.1.metaFile, fc) hfc
      exact ⟨fc', hfc', hsub _ hcont⟩
    · exact ih (groupStep gs a) r hr'

/-- Claim C5 (counterexample): a chunk whose text `"ab"` is a proper
substring of the previously accepted `"abc"` from the same file is NOT
dropped — the membership test `content in file_chunks[fp]["content"]`
is exact list membership, not a substring check. -/
theorem C5_substring_kept_counterexample :
    groupHits [((⟨"abc", "", "t", "f.py", "i1", "n"⟩ : VSDoc), 1),
               ((⟨"ab", "", "t", "f.py", "i2", "n"⟩ : VSDoc), 1)] =
      [("f.py", { file_name := "f.py", contents := ["abc", "ab"],
                  types := ["t"] })] ∧
    "abc" = "ab" ++ "c" ∧ "ab" ≠ "abc" := by
  decide

/-- Claim C5 (amended): within a file's group, a candidate chunk is
dropped exactly when its text is *equal* to a previously accepted chunk
of the same file: no group ever holds two equal chunk texts, and every
retrieved chunk's text is recorded in its file's group. -/
theorem C5_exact_duplicate_dedup (results : List (VSDoc × ℚ)) :
    (∀ p ∈ groupHits results, p.2.contents.Nodup) ∧
    ∀ r ∈ results, ∃ fc, (r.1.metaFile, fc) ∈ groupHits results ∧
      r.1.content ∈ fc.contents := by
  constructor
  · exact (foldl_groupStep_wf results [] (by simp) (by simp)).2
  · exact fun r hr => foldl_groupStep_contains results [] r hr

/-- Witness for C5 on the concrete two-hit result list. -/
theorem C5_witness :
    ((⟨"abc", "", "t", "f.py", "i1", "n"⟩ : VSDoc), (1 : ℚ)) ∈
      [((⟨"abc", "", "t", "f.py", "i1", "n"⟩ : VSDoc), (1 : ℚ)),
       ((⟨"ab", "", "t", "f.py", "i2", "n"⟩ : VSDoc), (1 : ℚ))] ∧
    ∃ fc, (((⟨"abc", "", "t", "f.py", "i1", "n"⟩ : VSDoc), (1 : ℚ)).1.metaFile, fc) ∈
        groupHits [((⟨"abc", "", "t", "f.py", "i1", "n"⟩ : VSDoc), (1 : ℚ)),
                   ((⟨"ab", "", "t", "f.py", "i2", "n"⟩ : VSDoc), (1 : ℚ))] ∧
      ((⟨"abc", "", "t", "f.py", "i1", "n"⟩ : VSDoc), (1 : ℚ)).1.content ∈ fc.contents :=
  ⟨by decide,
    (C5_exact_duplicate_dedup
      [((⟨"abc", "", "t", "f.py", "i1", "n"⟩ : VSDoc), (1 : ℚ)),
       ((⟨"ab", "", "t", "f.py", "i2", "n"⟩ : VSDoc), (1 : ℚ))]).2
      ((⟨"abc", "", "t", "f.py", "i1", "n"⟩ : VSDoc), (1 : ℚ)) (by decide)⟩

/-- Pass A never exceeds the file-count limit. -/
theorem passA_le (k : Nat) (gs : Groups) :
    ∀ acc : List String, acc.length ≤ k → (passA k gs acc).length ≤ k := by
  induction gs with
  | nil => exact fun acc h => h
  | cons p gs ih =>
    intro acc h
    unfold passA
    rw [List.foldl_cons]
    show (passA k gs _).length ≤ k
    split
    · next hc => exact ih _ (by simp; omega)
    · exact ih acc h

/-- Pass B never exceeds the file-count limit. -/
theorem passB_le (k : Nat) (gs : Groups) :
    ∀ acc : List String, acc.length ≤ k → (passB k gs acc).length ≤ k := by
  induction gs with
  | nil => exact fun acc h => h
  | cons p gs ih =>
    intro acc h
    unfold passB
    rw [List.foldl_cons]
    show (passB k gs _).length ≤ k
    split
    · next hc => exact ih _ (by simp; omega)
    · exact ih acc h

/-- Once the limit is reached, pass A adds nothing. -/
theorem passA_stop (k : Nat) (gs : Groups) :
    ∀ acc : List String, k ≤ acc.length → passA k gs acc = acc := by
  induction gs with
  | nil => exact fun acc _ => rfl
  | cons p gs ih =>
    intro acc h
    unfold passA
    rw [List.foldl_cons]
    show passA k gs _ = acc
    split
    · next hc => omega
    · exact ih acc h

/-- Once the limit is reached, pass B adds nothing. -/
theorem passB_stop (k : Nat) (gs : Groups) :
    ∀ acc : List String, k ≤ acc.length → passB k gs acc = acc := by
  induction gs with
  | nil => exact fun acc _ => rfl
  | cons p gs ih =>
    intro acc h
    unfold passB
    rw [List.foldl_cons]
    show passB k gs _ = acc
    split
    · next hc => omega
    · exact ih acc h

/-- Pass B only appends to what pass A selected. -/
theorem passB_extends (k : Nat) (gs : Groups) :
    ∀ acc : List String, ∃ t, passB k gs acc = acc ++ t := by
  induction gs with
  | nil => exact fun acc => ⟨[], (List.append_nil acc).symm⟩
  | cons p gs ih =>
    intro acc
    unfold passB
    rw [List.foldl_cons]
    show ∃ t, passB k gs _ = acc ++ t
    split
    · obtain ⟨t, ht⟩ := ih (acc ++ [p.1])
      exact ⟨[p.1] ++ t, by rw [ht, List.append_assoc]⟩
    · exact ih acc

/-- Everything pass A adds has a non-default-language suffix. -/
theorem passA_mem (k : Nat) (gs : Groups) :
    ∀ acc : List String, ∀ x ∈ passA k gs acc,
      x ∈ acc ∨ nonDefaultExt x = true := by
  induction gs with
  | nil => exact fun acc x hx => Or.inl hx
  | cons p gs ih =>
    intro acc x hx
    unfold passA at hx
    rw [List.foldl_cons] at hx
    revert hx
    show x ∈ passA k gs _ → _
    split
    · next hc =>
      intro hx
      rcases ih _ x hx with hin | hnd
      · rcases List.mem_append.mp hin with hin | hin
        · exact Or.inl hin
        · rw [List.mem_singleton] at hin
          rw [hin]
          exact Or.inr hc.1
      · exact Or.inr hnd
    · exact ih acc x

/-- With limit 1 and some non-default-language group present, pass A
selects exactly the first such group's file. -/
theorem passA_one (gs : Groups)
    (h : ∃ p ∈ gs, nonDefaultExt p.1 = true) :
    ∃ fp, passA 1 gs [] = [fp] ∧ nonDefaultExt fp = true := by
  induction gs with
  | nil =>
    obtain ⟨p, hp, _⟩ := h
    cases hp
  | cons p gs ih =>
    by_cases hc : nonDefaultExt p.1 = true
    · refine ⟨p.1, ?_, hc⟩
      have hstep : passA 1 (p :: gs) [] = passA 1 gs [p.1] := by
        unfold passA
        rw [List.foldl_cons]
        have : (if nonDefaultExt p.1 = true ∧ p.1 ∉ ([] : List String) ∧
            ([] : List String).length < 1 then ([] : List String) ++ [p.1]
          else []) = [p.1] := by
          rw [if_pos ⟨hc, List.not_mem_nil p.1, by simp⟩]
          rfl
        rw [this]
      rw [hstep]
      exact passA_stop 1 gs [p.1] (by simp)
    · obtain ⟨q, hq, hqd⟩ := h
      rcases List.mem_cons.mp hq with rfl | hq'
      · exact absurd hqd hc
      · have hstep : passA 1 (p :: gs) [] = passA 1 gs [] := by
          unfold passA
          rw [List.foldl_cons]
          have : (if nonDefaultExt p.1 = true ∧ p.1 ∉ ([] : List String) ∧
              ([] : List String).length < 1 then ([] : List String) ++ [p.1]
            else []) = [] := by
            rw [if_neg (fun hcc => hc hcc.1)]
          rw [this]
        rw [hstep]
        exact ih ⟨q, hq', hqd⟩

/-- Claim C6: context assembly selects at most `k` files; the selection
is pass A's non-default-language files (in encounter order) followed by
pass B's fill; and with `k = 1` and at least one non-default-language
group among the candidates, the single selected file is a
non-default-language one, regardless of scores. -/
theorem C6_two_pass_selection (k : Nat) (gs : Groups) :
    (selectFiles k gs).length ≤ k ∧
    (∃ rest, selectFiles k gs = passA k gs [] ++ rest) ∧
    (∀ x ∈ passA k gs [], nonDefaultExt x = true) ∧
    ((∃ p ∈ gs, nonDefaultExt p.1 = true) → k = 1 →
      ∃ fp, selectFiles k gs = [fp] ∧ nonDefaultExt fp = true) := by
  refine ⟨?_, ?_, ?_, ?_⟩
  · exact passB_le k gs _ (passA_le k gs [] (Nat.zero_le k))
  · exact passB_extends k gs (passA k gs [])
  · intro x hx
    rcases passA_mem k gs [] x hx with hin | hnd
    · cases hin
    · exact hnd
  · intro h hk
    subst hk
    obtain ⟨fp, hfp, hnd⟩ := passA_one gs h
    refine ⟨fp, ?_, hnd⟩
    unfold selectFiles
    rw [hfp]
    exact passB_stop 1 gs [fp] (by simp)

/-- Witness for C6: a Python group encountered first with a higher
score does not displace the Java group when the limit is one file. -/
theorem C6_witness :
    (∃ p ∈ groupHits [(pyDocA, (9 : ℚ)/10), (javaDoc, (8 : ℚ)/10)],
      nonDefaultExt p.1 = true) ∧
    ∃ fp, selectFiles 1 (groupHits [(pyDocA, (9 : ℚ)/10), (javaDoc, (8 : ℚ)/10)]) =
        [fp] ∧ nonDefaultExt fp = true :=
  ⟨by decide,
    (C6_two_pass_selection 1
      (groupHits [(pyDocA, (9 : ℚ)/10), (javaDoc, (8 : ℚ)/10)])).2.2.2
      (by decide) rfl⟩

/-- Witness for C8 on a concrete captures dict: the second definition
node has no contained name capture, and is still emitted with the
`"Unknown"` sentinel. -/
theorem C8_witness :
    (allDefIds c8Captures).Nodup ∧
    ("function.definition", [defNode1, defNode2]) ∈ c8Captures ∧
    strEnds "function.definition" ".definition" = true ∧
    defNode2 ∈ [defNode1, defNode2] ∧
    (∃ e ∈ extractFromCaptures "a.py" c8Captures,
      e.code = defNode2.text ∧
      e.etype = elementTypeBase "function.definition" ∧
      ((∃ n ∈ lookupCaptures c8Captures
          (elementTypeBase "function.definition" ++ ".name"),
          defNode2.startByte ≤ n.startByte ∧ n.endByte ≤ defNode2.endByte ∧
            e.name = some n.text) ∨
        ((∀ n ∈ lookupCaptures c8Captures
            (elementTypeBase "function.definition" ++ ".name"),
            ¬(defNode2.startByte ≤ n.startByte ∧ n.endByte ≤ defNode2.endByte)) ∧
          e.name = some "Unknown"))) :=
  ⟨by decide, by decide, by decide, by decide,
    C8_definition_names "a.py" c8Captures (by decide) "function.definition"
      [defNode1, defNode2] (by decide) (by decide) defNode2 (by decide)⟩

/-- Witness for C10 at a concrete one-document store. -/
theorem C10_witness :
    similarity_search constSim { documents := [pyDocA], embeddings := [[1]] }
        [1] (0 + 5) ≠ [] ∧
    ((process_query constSim (fun _ => [1]) (fun _ => Except.error "boom")
        { documents := [pyDocA], embeddings := [[1]] } "q" 0).1 =
          "Error generating response: " ++ "boom" ∧
      (process_query constSim (fun _ => [1]) (fun _ => Except.error "boom")
        { documents := [pyDocA], embeddings := [[1]] } "q" 0).2 =
          assembleContext (similarity_search constSim
            { documents := [pyDocA], embeddings := [[1]] } [1] (0 + 5)) 0 ∧
      (process_query constSim (fun _ => [1]) (fun _ => Except.ok "fine")
        { documents := [pyDocA], embeddings := [[1]] } "q" 0).2 =
          (process_query constSim (fun _ => [1]) (fun _ => Except.error "boom")
            { documents := [pyDocA], embeddings := [[1]] } "q" 0).2) :=
  ⟨by decide, C10_llm_failure_returns_context constSim (fun _ => [1])
    { documents := [pyDocA], embeddings := [[1]] } "q" 0 "boom" "fine" (by decide)⟩

end CodeRag
